import Mathlib

/-!
Verification of the retrieval-and-ranking core of the Private Knowledge Q&A
backend (`backend/server.py`).

Strings are modelled as `List Char`; the numeric type of embedding vectors
and similarity scores (`float`/numpy `float32` in the source) is modelled as
`ℝ`; token-overlap ratios (exact small rationals in the claims) as `ℚ`.
Character classes of the source's regexes (`\s`, `[^a-zA-Z0-9\s]`) are
modelled over their ASCII meaning.
-/

namespace PKQA

/-- Python's `\s` / `str.strip` whitespace class (ASCII part):
space, tab, newline, carriage return, vertical tab, form feed. -/
def pySpace (c : Char) : Bool :=
  c == ' ' || c == '\t' || c == '\n' || c == '\r' || c == '\x0b' || c == '\x0c'

/-- Python's `str.strip()`: drop leading and trailing whitespace. -/
def pyStrip (l : List Char) : List Char :=
  ((l.dropWhile pySpace).reverse.dropWhile pySpace).reverse

/-- One iteration state of the `while` loop of `chunk_text` (server.py lines
117-126).  `fuel` bounds the number of iterations; the loop advances `i` by
`step ≥ 1` and only runs while `i < len(text)`, so `fuel = text.length` is
always enough and the `fuel = 0` branch is dead code under that call. -/
def chunkLoop (text : List Char) (chunk_size overlap : Nat) :
    Nat → Nat → List (List Char)
  | 0, _ => []
  | fuel + 1, i =>
      let step := max 1 (chunk_size - overlap)
      let chunk := pyStrip (List.take chunk_size (List.drop i text))
      let rest :=
        if text.length ≤ i + step + overlap then []
        else chunkLoop text chunk_size overlap fuel (i + step)
      if chunk = [] then rest else chunk :: rest

/-- `chunk_text(text, chunk_size, overlap)` (server.py lines 112-127):
split text into character-based chunks with overlap; each window is
`text[i : i+chunk_size].strip()`, kept when non-empty; `i` advances by
`max(1, chunk_size - overlap)` and the loop breaks once
`i + overlap >= len(text)`. -/
def chunk_text (text : List Char) (chunk_size overlap : Nat) : List (List Char) :=
  if text = [] then [] else chunkLoop text chunk_size overlap text.length 0

-- sanity checks of the embedding on concrete inputs
example : chunk_text "a b".data 1 0 = ["a".data, "b".data] := by decide
example : chunk_text "abcde".data 3 1 = ["abc".data, "cde".data] := by decide
example : chunk_text "".data 400 100 = [] := by decide
example : chunk_text "  ".data 400 100 = [] := by decide

/-! ## Similarity scorer (server.py lines 152-164) -/

/-- `np.dot(a, b)` on equal-length vectors (elementwise product, summed). -/
def dot (a b : List ℝ) : ℝ := (List.zipWith (· * ·) a b).sum

/-- `np.linalg.norm(a)`: the Euclidean magnitude of a vector. -/
noncomputable def magnitude (a : List ℝ) : ℝ := Real.sqrt (dot a a)

/-- `cosine_similarity(vec1, vec2)` (server.py lines 152-159): returns `0.0`
when the product of magnitudes is zero, otherwise the dot product divided by
that denominator, clamped to `[-1, 1]`. -/
noncomputable def cosine_similarity (vec1 vec2 : List ℝ) : ℝ :=
  let denom := magnitude vec1 * magnitude vec2
  if denom = 0 then 0 else max (-1) (min 1 (dot vec1 vec2 / denom))

/-- `normalize_similarity(raw_cosine)` (server.py lines 162-164):
`(raw + 1) / 2`, clamped to `[0, 1]`. -/
noncomputable def normalize_similarity (raw_cosine : ℝ) : ℝ :=
  max 0 (min 1 ((raw_cosine + 1) / 2))

/-! ## Data model (server.py lines 65-99) -/

/-- The persisted `Chunk` model (server.py lines 73-79). -/
structure Chunk where
  id : List Char
  document_id : List Char
  document_name : List Char
  text : List Char
  embedding : List ℝ
  chunk_index : Nat

/-- The `Source` citation model (server.py lines 86-92). -/
structure Source where
  document_id : List Char
  document_name : List Char
  snippet : List Char
  highlight : List Char
  score : ℝ
  chunk_index : Nat

/-- The `AskResponse` model (server.py lines 95-99). -/
structure AskResponse where
  answer : List Char
  sources : List Source
  confidence : List Char
  confidence_score : ℝ

/-- The failure conditions `ask_question` can raise before composing an
answer: the `HTTPException(400)` for a blank question (line 321) and the
`HTTPException(404)` "No documents available" for an empty corpus
(line 326). -/
inductive AskError where
  | emptyQuestion : AskError
  | corpusEmpty : AskError
deriving DecidableEq

/-! ## Retriever/Ranker (server.py lines 328-351) -/

/-- Scoring pass (lines 328-334): pair every corpus chunk with the
normalized cosine similarity of its embedding against the question
embedding, in corpus order. -/
noncomputable def score_chunks (qe : List ℝ) (corpus : List Chunk) :
    List (Chunk × ℝ) :=
  corpus.map (fun c => (c, normalize_similarity (cosine_similarity qe c.embedding)))

/-- Stable descending insertion: the new element goes before the first
element whose score is `≤` its own, so earlier (in corpus order) elements
with an equal score stay in front. -/
noncomputable def insertDesc (x : Chunk × ℝ) : List (Chunk × ℝ) → List (Chunk × ℝ)
  | [] => [x]
  | y :: ys => if y.2 ≤ x.2 then x :: y :: ys else y :: insertDesc x ys

/-- `chunk_scores.sort(key=lambda x: x['score'], reverse=True)` (line 336):
Python's sort is stable, sorting descending by score while keeping
equal-score entries in their original order.  Stable insertion sort has
exactly that extensional behaviour (proved below: it is a permutation,
sorted descending, and filtering to any fixed score value preserves the
original sublist — which determines the result uniquely). -/
noncomputable def sortDesc : List (Chunk × ℝ) → List (Chunk × ℝ)
  | [] => []
  | x :: xs => insertDesc x (sortDesc xs)

/-- `min_score = 0.40` (line 338). -/
noncomputable def min_score : ℝ := 0.40

/-- `top_k = 10` (line 339). -/
def top_k : Nat := 10

/-- The deduplication key of a candidate:
`(chunk.get('document_id'), chunk.get('text'))` (line 347). -/
def chunkKey (p : Chunk × ℝ) : List Char × List Char :=
  (p.1.document_id, p.1.text)

/-- The `seen_exact` loop (lines 343-351): keep a candidate only when its
`(document_id, text)` key has not been seen; the `seen_exact` set is
modelled as the list of keys seen so far. -/
noncomputable def dedupLoop :
    List (Chunk × ℝ) → List (List Char × List Char) → List (Chunk × ℝ)
  | [], _ => []
  | p :: rest, seen =>
      if chunkKey p ∈ seen then dedupLoop rest seen
      else p :: dedupLoop rest (chunkKey p :: seen)

/-- `chunk_scores` sorted descending (line 336). -/
noncomputable def sorted_candidates (qe : List ℝ) (corpus : List Chunk) :
    List (Chunk × ℝ) :=
  sortDesc (score_chunks qe corpus)

/-- `filtered_candidates` (lines 340-341): top-K prefix of the sorted list,
restricted to scores `≥ min_score`. -/
noncomputable def filtered_candidates (qe : List ℝ) (corpus : List Chunk) :
    List (Chunk × ℝ) :=
  (List.take top_k (sorted_candidates qe corpus)).filter
    (fun p => decide (min_score ≤ p.2))

/-- `top_chunks` (lines 343-351): the surviving candidate list after
sorting, top-K selection, threshold filtering and deduplication. -/
noncomputable def rank_candidates (qe : List ℝ) (corpus : List Chunk) :
    List (Chunk × ℝ) :=
  dedupLoop (filtered_candidates qe corpus) []

/-! ## Confidence (server.py lines 432-438) -/

/-- `confidence_score = sum(item['score'] for item in top_chunks) / len(top_chunks)`
(line 432). -/
noncomputable def confidence_score (top_chunks : List (Chunk × ℝ)) : ℝ :=
  (top_chunks.map (fun p => p.2)).sum / top_chunks.length

/-- The confidence banding (lines 433-438): `>= 0.52` is "high",
`>= 0.49` is "medium", anything lower is "low". -/
noncomputable def confidence_label (c : ℝ) : List Char :=
  if 0.52 ≤ c then "high".data
  else if 0.49 ≤ c then "medium".data
  else "low".data

/-! ## Highlight selection (server.py lines 167-188) -/

/-- The ASCII character class `[a-zA-Z0-9]` of the cleaning regex. -/
def alnum (c : Char) : Bool := c.isAlphanum

/-- `re.sub(r"[^a-zA-Z0-9\s]", " ", s.lower())`: lowercase, then replace
every character that is neither alphanumeric nor whitespace by a space. -/
def cleanText (l : List Char) : List Char :=
  (l.map Char.toLower).map (fun c => if alnum c || pySpace c then c else ' ')

/-- Python's no-argument `str.split()`: split on whitespace runs and drop
empty pieces. -/
def pySplit (l : List Char) : List (List Char) :=
  (l.splitOnP pySpace).filter (fun s => !s.isEmpty)

/-- The normalized term set of a text: clean, split, collect as a set
(lines 168-169 for the question, 178-179 for a sentence). -/
def terms (l : List Char) : Finset (List Char) :=
  (pySplit (cleanText l)).toFinset

/-- Does the accumulated (reversed) sentence end in `.`, `!` or `?` — the
lookbehind of the sentence-splitting regex `(?<=[.!?])\s+`. -/
def endsTerminator (acc : List Char) : Bool :=
  match acc with
  | p :: _ => p == '.' || p == '!' || p == '?'
  | [] => false

/-- Scanner for `re.split(r"(?<=[.!?])\s+", s)`: `inSep` records that the
current position is inside a whitespace run that started a separator match
(so further whitespace is consumed into the same match); `acc` is the
current segment, reversed. -/
def sentSplitGo : List Char → Bool → List Char → List (List Char)
  | [], _, acc => [acc.reverse]
  | c :: rest, true, acc =>
      if pySpace c then sentSplitGo rest true acc
      else sentSplitGo rest false (c :: acc)
  | c :: rest, false, acc =>
      if pySpace c && endsTerminator acc then
        acc.reverse :: sentSplitGo rest true []
      else sentSplitGo rest false (c :: acc)

/-- `re.split(r"(?<=[.!?])\s+", s)` (line 173): split at whitespace runs
preceded by a sentence terminator. -/
def sentSplit (l : List Char) : List (List Char) := sentSplitGo l false []

/-- `overlap / max(1, len(question_terms))` (lines 182-183), as an exact
rational. -/
def overlap_score (qt : Finset (List Char)) (s : List Char) : ℚ :=
  ((qt ∩ terms s).card : ℚ) / (max 1 qt.card : ℚ)

/-- The `for sentence in sentences` loop (lines 177-186): skip sentences
with no terms; otherwise keep the sentence iff its score strictly beats the
running best. -/
def highlightGo (qt : Finset (List Char)) :
    List (List Char) → List Char → ℚ → List Char
  | [], best, _ => best
  | s :: rest, best, bestScore =>
      if terms s = ∅ then highlightGo qt rest best bestScore
      else if bestScore < overlap_score qt s then
        highlightGo qt rest s (overlap_score qt s)
      else highlightGo qt rest best bestScore

/-- `select_highlight_sentence(text, question)` (server.py lines 167-188). -/
def select_highlight_sentence (text question : List Char) : List Char :=
  let qt := terms question
  if qt = ∅ then pyStrip text
  else
    let sentences := sentSplit (pyStrip text)
    let init := match sentences with | [] => text | s :: _ => s
    pyStrip (highlightGo qt sentences init (-1))

-- sanity checks on concrete inputs (Rat arithmetic does not kernel-reduce,
-- so highlight selection itself is exercised in the theorems below)
example : sentSplit "Hi there. Bye now.".data = ["Hi there.".data, "Bye now.".data] := by decide
example : sentSplit "!!! Hello.".data = ["!!!".data, "Hello.".data] := by decide
example : terms "Why, do dogs BARK?".data
    = {"why".data, "do".data, "dogs".data, "bark".data} := by decide

/-! ## The ask operation (server.py lines 316-450)

The two external collaborators are parameters: `embed` is the embedding
provider (`get_embedding`), and `complete_answer` abstracts the
chat-completion call together with the lenient JSON answer extraction of
lines 401-415 (`parse_llm_json` plus the `answer` field fallback): given
the system message and the user prompt it yields the final answer text.
The `Bool` paired with the response records whether the chat-completion
collaborator was invoked.  The 4-decimal display rounding
(`round(·, 4)`, lines 427 and 444) of the returned float fields is
omitted: it is a float-formatting concern no claim depends on. -/

/-- The canned refusal text (server.py line 355 and rule 6 of the system
message). -/
def insufficient_answer : List Char :=
  "I don\x27t have enough information in the uploaded documents to answer this question.".data

/-- The fixed response returned when nothing survives the ranker
(server.py lines 353-359). -/
noncomputable def no_evidence_response : AskResponse :=
  { answer := insufficient_answer
    sources := []
    confidence := "low".data
    confidence_score := 0 }

/-- One context block `f"--- Document: {name}\n{text}"` (line 362). -/
def context_part (c : Chunk) : List Char :=
  "--- Document: ".data ++ c.document_name ++ "\n".data ++ c.text

/-- `"\n\n".join(context_parts)` (line 365). -/
def build_context (top_chunks : List (Chunk × ℝ)) : List Char :=
  (List.intersperse "\n\n".data (top_chunks.map (fun p => context_part p.1))).flatten

/-- The system message (server.py lines 367-378). -/
def system_message : List Char :=
  ("You are a helpful AI assistant that answers questions based ONLY on the provided context.\n\nIMPORTANT RULES:\n1. Base your answer ONLY on the retrieved context. If multiple sources are present, consider all before answering.\n2. When multiple documents are retrieved and the question asks for comparison, explicitly compare information from EACH document.\n3. Do NOT assume missing information if context from both documents is present.\n4. If both documents contain refund policy details, extract and compare both.\n5. If a document truly has no relevant info, explicitly verify before stating it.\n6. If the context doesn\x27t contain enough information to answer the question, respond with: \"I don\x27t have enough information in the uploaded documents to answer this question.\"\n7. Return STRICT JSON only, with this shape:\n   \x7b\"answer\": string, \"sources\": [\x7b\"documentName\": string, \"snippet\": string\x7d]\x7d\n8. Do not include markdown, code fences, or extra keys").data

/-- The user prompt (server.py lines 380-388). -/
def user_prompt (context question : List Char) : List Char :=
  "Context from documents:\n\n".data ++ context
    ++ "\n\n---\n\nQuestion: ".data ++ question ++ "\n\nReturn JSON only.".data

/-- `chunk['text'][:200] + "..."` when longer than 200 characters
(line 420). -/
def make_snippet (t : List Char) : List Char :=
  if 200 < t.length then t.take 200 ++ "...".data else t

/-- One `Source` row (lines 421-430), without the display rounding of the
score. -/
noncomputable def make_source (question : List Char) (p : Chunk × ℝ) : Source :=
  { document_id := p.1.document_id
    document_name := p.1.document_name
    snippet := make_snippet p.1.text
    highlight := select_highlight_sentence p.1.text question
    score := p.2
    chunk_index := p.1.chunk_index }

/-- `ask_question` (server.py lines 316-450): reject a blank question,
embed it, reject an empty corpus, rank the corpus, short-circuit with the
canned answer when nothing survives, otherwise call the chat collaborator
on the built context and compose the response. -/
noncomputable def ask_question (embed : List Char → List ℝ)
    (complete_answer : List Char → List Char → List Char)
    (corpus : List Chunk) (question : List Char) :
    Except AskError (AskResponse × Bool) :=
  if pyStrip question = [] then .error .emptyQuestion
  else
    let question_embedding := embed question
    match corpus with
    | [] => .error .corpusEmpty
    | _ :: _ =>
      match rank_candidates question_embedding corpus with
      | [] => .ok (no_evidence_response, false)
      | p :: rest =>
        let top_chunks := p :: rest
        let context := build_context top_chunks
        let llm_response := complete_answer system_message (user_prompt context question)
        let cscore := confidence_score top_chunks
        .ok ({ answer := llm_response
               sources := top_chunks.map (make_source question)
               confidence := confidence_label cscore
               confidence_score := cscore }, true)

/-! ## Lemmas about `pyStrip` -/

theorem mem_dropWhile_of_neg {p : Char → Bool} {x : Char} {l : List Char}
    (hx : x ∈ l) (hpx : p x = false) : x ∈ l.dropWhile p := by
  induction l with
  | nil => cases hx
  | cons a t ih =>
    rw [List.dropWhile_cons]
    by_cases ha : p a
    · rw [if_pos ha]
      rcases List.mem_cons.mp hx with rfl | hxt
      · rw [hpx] at ha; cases ha
      · exact ih hxt
    · rw [if_neg ha]; exact hx

theorem mem_pyStrip {x : Char} {l : List Char}
    (hx : x ∈ l) (hpx : pySpace x = false) : x ∈ pyStrip l := by
  unfold pyStrip
  rw [List.mem_reverse]
  exact mem_dropWhile_of_neg (List.mem_reverse.mpr (mem_dropWhile_of_neg hx hpx)) hpx

theorem pyStrip_eq_nil {l : List Char} (h : ∀ x ∈ l, pySpace x = true) :
    pyStrip l = [] := by
  unfold pyStrip
  have h1 : l.dropWhile pySpace = [] := List.dropWhile_eq_nil_iff.mpr h
  rw [h1]
  rfl

theorem dropWhile_dropWhile (p : Char → Bool) (l : List Char) :
    (l.dropWhile p).dropWhile p = l.dropWhile p := by
  induction l with
  | nil => rfl
  | cons a t ih =>
    rw [List.dropWhile_cons]
    by_cases h : p a
    · rw [if_pos h]; exact ih
    · rw [if_neg h, List.dropWhile_cons, if_neg h]

theorem dropWhile_head_false (p : Char → Bool) (l : List Char) :
    l.dropWhile p = [] ∨ ∃ a t, l.dropWhile p = a :: t ∧ p a = false := by
  induction l with
  | nil => exact Or.inl rfl
  | cons a t ih =>
    rw [List.dropWhile_cons]
    by_cases h : p a
    · rw [if_pos h]; exact ih
    · rw [if_neg h]
      exact Or.inr ⟨a, t, rfl, by simpa using h⟩

theorem pyStrip_idem (l : List Char) : pyStrip (pyStrip l) = pyStrip l := by
  have hrr : (pyStrip l).reverse = (l.dropWhile pySpace).reverse.dropWhile pySpace := by
    unfold pyStrip; rw [List.reverse_reverse]
  have h1 : (pyStrip l).dropWhile pySpace = pyStrip l := by
    rcases dropWhile_head_false pySpace l with hm | ⟨a, t, hm, ha⟩
    · have hz : pyStrip l = [] := by unfold pyStrip; rw [hm]; rfl
      rw [hz]; rfl
    · have hpre : pyStrip l <+: l.dropWhile pySpace := by
        have hsuf : (pyStrip l).reverse <:+ (l.dropWhile pySpace).reverse := by
          rw [hrr]; exact List.dropWhile_suffix _
        exact List.reverse_suffix.mp hsuf
      cases hps : pyStrip l with
      | nil => rfl
      | cons b s =>
        obtain ⟨u, hu⟩ := hpre
        rw [hps] at hu
        rw [hm] at hu
        have hb : b = a := by
          have := congrArg (fun x => x.headI) hu
          simpa using this
        rw [List.dropWhile_cons]
        rw [hb, ha]
        simp
  calc pyStrip (pyStrip l)
      = (((pyStrip l).dropWhile pySpace).reverse.dropWhile pySpace).reverse := rfl
    _ = ((pyStrip l).reverse.dropWhile pySpace).reverse := by rw [h1]
    _ = (((l.dropWhile pySpace).reverse.dropWhile pySpace).dropWhile pySpace).reverse := by
          rw [hrr]
    _ = ((l.dropWhile pySpace).reverse.dropWhile pySpace).reverse := by
          rw [dropWhile_dropWhile]
    _ = pyStrip l := rfl

/-! ## Lemmas about the chunker -/

/-- Every chunk the loop emits is a stripped slice, hence stable under a
further strip and non-empty. -/
theorem chunkLoop_strip (text : List Char) (cs ov : Nat) :
    ∀ fuel i, ∀ c ∈ chunkLoop text cs ov fuel i, pyStrip c = c ∧ c ≠ [] := by
  intro fuel
  induction fuel with
  | zero => intro i c hc; cases hc
  | succ n ih =>
    intro i c hc
    rw [chunkLoop] at hc
    by_cases hc0 : pyStrip (List.take cs (List.drop i text)) = []
    · rw [if_pos hc0] at hc
      split at hc
      · cases hc
      · exact ih _ c hc
    · rw [if_neg hc0] at hc
      rcases List.mem_cons.mp hc with rfl | hrest
      · exact ⟨pyStrip_idem _, hc0⟩
      · split at hrest
        · cases hrest
        · exact ih _ c hrest

/-- C9: `chunk_text` of the empty text is the empty sequence, and every
returned chunk is non-empty after trimming. -/
theorem chunk_text_empty_and_trimmed (chunk_size overlap : Nat) :
    chunk_text [] chunk_size overlap = []
    ∧ ∀ text : List Char, ∀ c ∈ chunk_text text chunk_size overlap, pyStrip c ≠ [] := by
  refine ⟨rfl, ?_⟩
  intro text c hc
  unfold chunk_text at hc
  by_cases ht : text = []
  · rw [if_pos ht] at hc; cases hc
  · rw [if_neg ht] at hc
    obtain ⟨hs, hne⟩ := chunkLoop_strip text chunk_size overlap text.length 0 c hc
    rw [hs]; exact hne

theorem chunk_text_empty_and_trimmed_witness :
    pyStrip "a".data ≠ [] :=
  (chunk_text_empty_and_trimmed 1 0).2 "a".data "a".data (by decide)

/-- With `overlap < chunk_size` the advancing windows cover every position
of the text: the loop breaks (`i + overlap >= len` after `i += step`)
exactly when the last emitted window already reached the end. -/
theorem chunkLoop_coverage (text : List Char) (cs ov : Nat) (hov : ov < cs) :
    ∀ fuel i j, text.length ≤ fuel + i → i ≤ j → j < text.length →
      pySpace (text.getD j ' ') = false →
      ∃ c ∈ chunkLoop text cs ov fuel i, text.getD j ' ' ∈ c := by
  intro fuel
  induction fuel with
  | zero => intro i j hfi hij hj _; omega
  | succ n ih =>
    intro i j hfi hij hj hns
    have hstep : max 1 (cs - ov) = cs - ov := by omega
    rw [chunkLoop]
    by_cases hjc : j < i + cs
    · -- the position j lies in the current window
      have hb : j - i < (List.take cs (List.drop i text)).length := by
        rw [List.length_take, List.length_drop]; omega
      have hval : (List.take cs (List.drop i text))[j - i] = text.getD j ' ' := by
        rw [List.getElem_take, List.getElem_drop,
          List.getD_eq_getElem text ' ' hj]
        simp only [Nat.add_sub_cancel' hij]
      have hmem : text.getD j ' ' ∈ List.take cs (List.drop i text) :=
        hval ▸ List.getElem_mem hb
      have hx : text.getD j ' ' ∈ pyStrip (List.take cs (List.drop i text)) :=
        mem_pyStrip hmem hns
      rw [if_neg (List.ne_nil_of_mem hx)]
      exact ⟨pyStrip (List.take cs (List.drop i text)), List.mem_cons_self .., hx⟩
    · -- j is beyond the current window: the loop cannot break here
      have hguard : ¬ (text.length ≤ i + max 1 (cs - ov) + ov) := by
        rw [hstep]; omega
      rw [if_neg hguard]
      obtain ⟨c, hcmem, hcx⟩ :=
        ih (i + max 1 (cs - ov)) j (by omega) (by omega) hj hns
      by_cases hc0 : pyStrip (List.take cs (List.drop i text)) = []
      · rw [if_pos hc0]; exact ⟨c, hcmem, hcx⟩
      · rw [if_neg hc0]; exact ⟨c, List.mem_cons_of_mem _ hcmem, hcx⟩

/-- C1 counterexample: at `text = "a b"`, `chunk_size = 1`, `overlap = 0`
(which satisfies `0 ≤ overlap < chunk_size`, with non-empty text) the space
character of the original text appears in neither returned chunk: the
per-window `.strip()` deleted it. -/
theorem chunk_text_char_coverage_counterexample :
    (0 : Nat) < 1 ∧ "a b".data ≠ []
    ∧ chunk_text "a b".data 1 0 = ["a".data, "b".data]
    ∧ ' ' ∈ "a b".data
    ∧ ' ' ∉ "a".data ∧ ' ' ∉ "b".data := by decide

/-- Coverage at the `chunk_text` level, shared by the coverage claims. -/
theorem chunk_text_coverage_aux (text : List Char) (cs ov j : Nat)
    (hov : ov < cs) (hj : j < text.length)
    (hns : pySpace (text.getD j ' ') = false) :
    ∃ c ∈ chunk_text text cs ov, text.getD j ' ' ∈ c := by
  have ht : text ≠ [] := by
    intro h; rw [h] at hj; simp at hj
  unfold chunk_text
  rw [if_neg ht]
  exact chunkLoop_coverage text cs ov hov text.length 0 j (by omega) (by omega) hj hns

/-- C1 (amended): with `0 ≤ overlap < chunk_size`, every NON-WHITESPACE
character of a text appears in at least one chunk returned by
`chunk_text` (there are no window gaps in this parameter range — the
feared early termination cannot drop a tail here); only whitespace
characters can disappear, through the per-window trimming. -/
theorem chunk_text_nonspace_coverage (text : List Char) (cs ov j : Nat)
    (hov : ov < cs) (hj : j < text.length)
    (hns : pySpace (text.getD j ' ') = false) :
    ∃ c ∈ chunk_text text cs ov, text.getD j ' ' ∈ c :=
  chunk_text_coverage_aux text cs ov j hov hj hns

theorem chunk_text_nonspace_coverage_witness :
    ∃ c ∈ chunk_text "ab".data 2 1, "ab".data.getD 0 ' ' ∈ c :=
  chunk_text_nonspace_coverage "ab".data 2 1 0 (by decide) (by decide) (by decide)

/-- If the text is all whitespace, every window strips to empty and the
loop emits nothing. -/
theorem chunkLoop_allspace (text : List Char) (cs ov : Nat)
    (h : ∀ ch ∈ text, pySpace ch = true) :
    ∀ fuel i, chunkLoop text cs ov fuel i = [] := by
  intro fuel
  induction fuel with
  | zero => intro i; rfl
  | succ n ih =>
    intro i
    rw [chunkLoop]
    have hsub : ∀ x ∈ List.take cs (List.drop i text), x ∈ text := by
      intro x hx
      exact ((List.take_sublist cs (List.drop i text)).trans
        (List.drop_sublist i text)).mem hx
    have hc0 : pyStrip (List.take cs (List.drop i text)) = [] :=
      pyStrip_eq_nil (fun x hx => h x (hsub x hx))
    rw [if_pos hc0]
    split
    · rfl
    · exact ih _

/-- C10: a text containing at least one non-whitespace character yields at
least one chunk (for `0 ≤ overlap < chunk_size`, as used by
`upload_document`); conversely a non-empty all-whitespace text yields no
chunks at all. -/
theorem chunk_text_nonempty_iff_has_nonspace (text : List Char) (cs ov : Nat) :
    (ov < cs → (∃ ch ∈ text, pySpace ch = false) → chunk_text text cs ov ≠ [])
    ∧ (text ≠ [] → (∀ ch ∈ text, pySpace ch = true) → chunk_text text cs ov = []) := by
  constructor
  · rintro hov ⟨ch, hmem, hns⟩
    obtain ⟨n, hn⟩ := List.mem_iff_get.mp hmem
    have hd : text.getD n.1 ' ' = ch := by
      rw [List.getD_eq_getElem text ' ' n.2]
      simpa [List.get_eq_getElem] using hn
    obtain ⟨c, hc, -⟩ :=
      chunk_text_coverage_aux text cs ov n.1 hov n.2 (by rw [hd]; exact hns)
    exact List.ne_nil_of_mem hc
  · intro ht hall
    unfold chunk_text
    rw [if_neg ht]
    exact chunkLoop_allspace text cs ov hall text.length 0

theorem chunk_text_nonempty_iff_has_nonspace_witness :
    chunk_text "a".data 1 0 ≠ [] ∧ chunk_text " ".data 1 0 = [] :=
  ⟨(chunk_text_nonempty_iff_has_nonspace "a".data 1 0).1 (by decide) (by decide),
   (chunk_text_nonempty_iff_has_nonspace " ".data 1 0).2 (by decide) (by decide)⟩

/-! ## Lemmas about the similarity scorer -/

theorem dot_self_nonneg (v : List ℝ) : 0 ≤ dot v v := by
  induction v with
  | nil => simp [dot]
  | cons a l ih =>
    have : dot (a :: l) (a :: l) = a * a + dot l l := by
      simp [dot, List.zipWith_cons_cons]
    rw [this]
    exact add_nonneg (mul_self_nonneg a) ih

theorem dot_self_pos {v : List ℝ} (h : ∃ x ∈ v, x ≠ 0) : 0 < dot v v := by
  obtain ⟨x, hxv, hx0⟩ := h
  induction v with
  | nil => cases hxv
  | cons a l ih =>
    have hc : dot (a :: l) (a :: l) = a * a + dot l l := by
      simp [dot, List.zipWith_cons_cons]
    rw [hc]
    rcases List.mem_cons.mp hxv with rfl | hxl
    · exact add_pos_of_pos_of_nonneg (mul_self_pos.mpr hx0) (dot_self_nonneg l)
    · exact add_pos_of_nonneg_of_pos (mul_self_nonneg a) (ih hxl)

theorem dot_map_neg_right (v : List ℝ) :
    dot v (v.map (fun x => -x)) = -(dot v v) := by
  induction v with
  | nil => simp [dot]
  | cons a l ih =>
    have h1 : dot (a :: l) ((a :: l).map (fun x => -x))
        = a * (-a) + dot l (l.map (fun x => -x)) := by
      simp [dot, List.map_cons, List.zipWith_cons_cons]
    have h2 : dot (a :: l) (a :: l) = a * a + dot l l := by
      simp [dot, List.zipWith_cons_cons]
    rw [h1, h2, ih]
    ring

theorem dot_map_neg_self (v : List ℝ) :
    dot (v.map (fun x => -x)) (v.map (fun x => -x)) = dot v v := by
  induction v with
  | nil => simp [dot]
  | cons a l ih =>
    have h1 : dot ((a :: l).map (fun x => -x)) ((a :: l).map (fun x => -x))
        = (-a) * (-a) + dot (l.map (fun x => -x)) (l.map (fun x => -x)) := by
      simp [dot, List.map_cons, List.zipWith_cons_cons]
    have h2 : dot (a :: l) (a :: l) = a * a + dot l l := by
      simp [dot, List.zipWith_cons_cons]
    rw [h1, h2, ih]
    ring

theorem normalize_similarity_mem_unit (x : ℝ) :
    0 ≤ normalize_similarity x ∧ normalize_similarity x ≤ 1 := by
  unfold normalize_similarity
  exact ⟨le_max_left 0 _, max_le (by norm_num) (min_le_left 1 _)⟩

theorem cosine_similarity_mem_Icc (v1 v2 : List ℝ) :
    -1 ≤ cosine_similarity v1 v2 ∧ cosine_similarity v1 v2 ≤ 1 := by
  unfold cosine_similarity
  by_cases hd : magnitude v1 * magnitude v2 = 0
  · rw [if_pos hd]; norm_num
  · rw [if_neg hd]
    exact ⟨le_max_left _ _, max_le (by norm_num) (min_le_left 1 _)⟩

/-- C6: if either vector has zero magnitude the raw cosine is exactly 0
(the division is never taken) and its normalization is exactly 0.5; in all
cases the raw value lies in `[-1, 1]` and the normalized value in
`[0, 1]`. -/
theorem cosine_similarity_zero_denominator (v1 v2 : List ℝ)
    (h : v1.length = v2.length) :
    ((magnitude v1 = 0 ∨ magnitude v2 = 0) →
        cosine_similarity v1 v2 = 0
        ∧ normalize_similarity (cosine_similarity v1 v2) = 0.5)
    ∧ (-1 ≤ cosine_similarity v1 v2 ∧ cosine_similarity v1 v2 ≤ 1)
    ∧ (0 ≤ normalize_similarity (cosine_similarity v1 v2)
        ∧ normalize_similarity (cosine_similarity v1 v2) ≤ 1) := by
  refine ⟨?_, cosine_similarity_mem_Icc v1 v2, normalize_similarity_mem_unit _⟩
  intro hz
  have hd : magnitude v1 * magnitude v2 = 0 := by
    rcases hz with hz | hz <;> rw [hz] <;> ring
  have hc : cosine_similarity v1 v2 = 0 := by
    unfold cosine_similarity
    rw [if_pos hd]
  refine ⟨hc, ?_⟩
  rw [hc]
  unfold normalize_similarity
  norm_num

theorem cosine_similarity_zero_denominator_witness :
    cosine_similarity [(0 : ℝ)] [1] = 0
    ∧ normalize_similarity (cosine_similarity [(0 : ℝ)] [1]) = 0.5 :=
  (cosine_similarity_zero_denominator [0] [1] rfl).1
    (Or.inl (by norm_num [magnitude, dot, Real.sqrt_zero]))

/-- C7: for a non-zero vector, the normalized self-similarity is exactly 1
and the normalized similarity against the negated vector is exactly 0. -/
theorem cosine_similarity_self_extremes (v : List ℝ) (h : ∃ x ∈ v, x ≠ 0) :
    normalize_similarity (cosine_similarity v v) = 1
    ∧ normalize_similarity (cosine_similarity v (v.map (fun x => -x))) = 0 := by
  have hd : 0 < dot v v := dot_self_pos h
  have hmm : magnitude v * magnitude v = dot v v := by
    unfold magnitude
    exact Real.mul_self_sqrt (dot_self_nonneg v)
  constructor
  · have hc : cosine_similarity v v = 1 := by
      unfold cosine_similarity
      rw [hmm, if_neg hd.ne', div_self hd.ne']
      norm_num
    rw [hc]
    unfold normalize_similarity
    norm_num
  · have hmneg : magnitude (v.map (fun x => -x)) = magnitude v := by
      unfold magnitude
      rw [dot_map_neg_self]
    have hc : cosine_similarity v (v.map (fun x => -x)) = -1 := by
      unfold cosine_similarity
      rw [hmneg, hmm, if_neg hd.ne', dot_map_neg_right, neg_div, div_self hd.ne']
      norm_num
    rw [hc]
    unfold normalize_similarity
    norm_num

theorem cosine_similarity_self_extremes_witness :
    normalize_similarity (cosine_similarity [(1 : ℝ)] (([(1 : ℝ)]).map (fun x => -x))) = 0
    ∧ normalize_similarity (cosine_similarity [(1 : ℝ)] [(1 : ℝ)]) = 1 :=
  ⟨(cosine_similarity_self_extremes [1] ⟨1, by simp, one_ne_zero⟩).2,
   (cosine_similarity_self_extremes [1] ⟨1, by simp, one_ne_zero⟩).1⟩

/-! ## Lemmas about the ranker: sorting -/

theorem insertDesc_perm (x : Chunk × ℝ) (l : List (Chunk × ℝ)) :
    (insertDesc x l).Perm (x :: l) := by
  induction l with
  | nil => exact List.Perm.refl _
  | cons y ys ih =>
    rw [insertDesc]
    by_cases hle : y.2 ≤ x.2
    · rw [if_pos hle]
    · rw [if_neg hle]
      exact (List.Perm.cons y ih).trans (List.Perm.swap x y ys)

theorem sortDesc_perm (l : List (Chunk × ℝ)) : (sortDesc l).Perm l := by
  induction l with
  | nil => exact List.Perm.refl _
  | cons x xs ih =>
    rw [sortDesc]
    exact (insertDesc_perm x (sortDesc xs)).trans (List.Perm.cons x ih)

theorem mem_insertDesc {x p : Chunk × ℝ} {l : List (Chunk × ℝ)}
    (h : p ∈ insertDesc x l) : p = x ∨ p ∈ l := by
  have := (insertDesc_perm x l).mem_iff.mp h
  simpa using this

theorem insertDesc_sorted {x : Chunk × ℝ} {l : List (Chunk × ℝ)}
    (h : l.Pairwise (fun a b => b.2 ≤ a.2)) :
    (insertDesc x l).Pairwise (fun a b => b.2 ≤ a.2) := by
  induction l with
  | nil => simp [insertDesc]
  | cons y ys ih =>
    rw [insertDesc]
    rw [List.pairwise_cons] at h
    by_cases hle : y.2 ≤ x.2
    · rw [if_pos hle]
      refine List.pairwise_cons.mpr ⟨?_, List.pairwise_cons.mpr h⟩
      intro z hz
      rcases List.mem_cons.mp hz with rfl | hzys
      · exact hle
      · exact (h.1 z hzys).trans hle
    · rw [if_neg hle]
      refine List.pairwise_cons.mpr ⟨?_, ih h.2⟩
      intro z hz
      rcases mem_insertDesc hz with rfl | hzys
      · exact (not_le.mp hle).le
      · exact h.1 z hzys

theorem sortDesc_sorted (l : List (Chunk × ℝ)) :
    (sortDesc l).Pairwise (fun a b => b.2 ≤ a.2) := by
  induction l with
  | nil => simp [sortDesc]
  | cons x xs ih =>
    rw [sortDesc]
    exact insertDesc_sorted ih

/-- Stability of the insertion step: for a predicate that can only hold on
candidates of one common score value, filtering commutes with insertion. -/
theorem filter_insertDesc (q : Chunk × ℝ → Bool)
    (hq : ∀ a b : Chunk × ℝ, q a = true → q b = true → a.2 = b.2)
    (x : Chunk × ℝ) (l : List (Chunk × ℝ)) :
    (insertDesc x l).filter q = ((x :: l).filter q) := by
  induction l with
  | nil => rfl
  | cons y ys ih =>
    rw [insertDesc]
    by_cases hle : y.2 ≤ x.2
    · rw [if_pos hle]
    · rw [if_neg hle]
      by_cases hqy : q y = true
      · by_cases hqx : q x = true
        · exact absurd (hq x y hqx hqy) (fun he => hle (le_of_eq he.symm))
        · simp [List.filter_cons, hqx, hqy, ih]
      · by_cases hqx : q x = true <;>
          simp [List.filter_cons, hqy, hqx, ih]

/-- Stability of the sort: filtering to any single score value yields the
original (corpus-order) sublist unchanged. -/
theorem sortDesc_filter (q : Chunk × ℝ → Bool)
    (hq : ∀ a b : Chunk × ℝ, q a = true → q b = true → a.2 = b.2)
    (l : List (Chunk × ℝ)) :
    (sortDesc l).filter q = l.filter q := by
  induction l with
  | nil => rfl
  | cons x xs ih =>
    rw [sortDesc, filter_insertDesc q hq]
    by_cases hqx : q x = true <;> simp [List.filter_cons, hqx, ih]

/-! ## Lemmas about the ranker: deduplication -/

theorem dedupLoop_sublist :
    ∀ (l : List (Chunk × ℝ)) (seen : List (List Char × List Char)),
      List.Sublist (dedupLoop l seen) l := by
  intro l
  induction l with
  | nil => intro seen; exact List.Sublist.refl _
  | cons p rest ih =>
    intro seen
    rw [dedupLoop]
    by_cases hk : chunkKey p ∈ seen
    · rw [if_pos hk]
      exact (ih seen).cons p
    · rw [if_neg hk]
      exact (ih (chunkKey p :: seen)).cons₂ p

theorem dedupLoop_notin_seen :
    ∀ (l : List (Chunk × ℝ)) (seen : List (List Char × List Char))
      (p : Chunk × ℝ), p ∈ dedupLoop l seen → chunkKey p ∉ seen := by
  intro l
  induction l with
  | nil => intro seen p hp; cases hp
  | cons q rest ih =>
    intro seen p hp
    rw [dedupLoop] at hp
    by_cases hk : chunkKey q ∈ seen
    · rw [if_pos hk] at hp
      exact ih seen p hp
    · rw [if_neg hk] at hp
      rcases List.mem_cons.mp hp with rfl | hp'
      · exact hk
      · intro hmem
        exact (ih _ p hp') (List.mem_cons_of_mem _ hmem)

theorem dedupLoop_pairwise_keys :
    ∀ (l : List (Chunk × ℝ)) (seen : List (List Char × List Char)),
      (dedupLoop l seen).Pairwise (fun a b => chunkKey a ≠ chunkKey b) := by
  intro l
  induction l with
  | nil => intro seen; simp [dedupLoop]
  | cons q rest ih =>
    intro seen
    rw [dedupLoop]
    by_cases hk : chunkKey q ∈ seen
    · rw [if_pos hk]; exact ih seen
    · rw [if_neg hk]
      refine List.pairwise_cons.mpr ⟨?_, ih _⟩
      intro p hp hkey
      exact (dedupLoop_notin_seen rest _ p hp) (by rw [← hkey]; exact List.mem_cons_self ..)

/-- Every candidate entering the dedup loop with an unseen key is
represented in the output by an entry with the same key and an
at-least-as-high score (on a descending-sorted input the kept entry is the
first, hence highest-scored, occurrence of its key). -/
theorem dedupLoop_covers :
    ∀ (l : List (Chunk × ℝ)) (seen : List (List Char × List Char)),
      l.Pairwise (fun a b => b.2 ≤ a.2) →
      ∀ p ∈ l, chunkKey p ∉ seen →
        ∃ x ∈ dedupLoop l seen, chunkKey x = chunkKey p ∧ p.2 ≤ x.2 := by
  intro l
  induction l with
  | nil => intro seen _ p hp; cases hp
  | cons q rest ih =>
    intro seen hsort p hp hpk
    rw [List.pairwise_cons] at hsort
    rw [dedupLoop]
    by_cases hk : chunkKey q ∈ seen
    · rw [if_pos hk]
      rcases List.mem_cons.mp hp with rfl | hp'
      · exact absurd hk hpk
      · exact ih seen hsort.2 p hp' hpk
    · rw [if_neg hk]
      rcases List.mem_cons.mp hp with rfl | hp'
      · exact ⟨p, List.mem_cons_self .., rfl, le_refl _⟩
      · by_cases hkey : chunkKey p = chunkKey q
        · exact ⟨q, List.mem_cons_self .., hkey.symm, hsort.1 p hp'⟩
        · have hpk' : chunkKey p ∉ chunkKey q :: seen := by
            intro hmem
            rcases List.mem_cons.mp hmem with he | hm
            · exact hkey he
            · exact hpk hm
          obtain ⟨x, hx, hxk, hxs⟩ := ih _ hsort.2 p hp' hpk'
          exact ⟨x, List.mem_cons_of_mem _ hx, hxk, hxs⟩

/-! ## The ranker claim -/

/-- The surviving list is a sublist of the sorted candidate list. -/
theorem rank_candidates_sublist_sorted (qe : List ℝ) (corpus : List Chunk) :
    List.Sublist (rank_candidates qe corpus)
      (List.take top_k (sorted_candidates qe corpus)) := by
  unfold rank_candidates filtered_candidates
  exact (dedupLoop_sublist _ []).trans (List.filter_sublist _)

/-- C2: for every question vector and corpus, the surviving candidate list
(1) has length at most `top_k = 10`, (2) only carries scores at or above
`min_score = 0.40`, (3) is sorted descending by score, (4) restricted to
any single score value is a sublist of the corpus-order scored list (so
ties keep the original corpus order), (5) contains no two entries sharing
the `(document_id, text)` key, and (6) represents every thresholded
candidate's key by a surviving entry scoring at least as high (the first,
highest-scored occurrence is the one kept). -/
theorem rank_candidates_spec (qe : List ℝ) (corpus : List Chunk) :
    (rank_candidates qe corpus).length ≤ top_k
    ∧ (∀ p ∈ rank_candidates qe corpus, min_score ≤ p.2)
    ∧ (rank_candidates qe corpus).Pairwise (fun a b => b.2 ≤ a.2)
    ∧ (∀ s : ℝ, List.Sublist
        ((rank_candidates qe corpus).filter (fun p => decide (p.2 = s)))
        ((score_chunks qe corpus).filter (fun p => decide (p.2 = s))))
    ∧ (rank_candidates qe corpus).Pairwise (fun a b => chunkKey a ≠ chunkKey b)
    ∧ (∀ p ∈ filtered_candidates qe corpus,
        ∃ x ∈ rank_candidates qe corpus, chunkKey x = chunkKey p ∧ p.2 ≤ x.2) := by
  have hsub_filtered : List.Sublist (rank_candidates qe corpus)
      (filtered_candidates qe corpus) := dedupLoop_sublist _ []
  have hsub_sorted := rank_candidates_sublist_sorted qe corpus
  have hsorted_take : (List.take top_k (sorted_candidates qe corpus)).Pairwise
      (fun a b => b.2 ≤ a.2) :=
    (sortDesc_sorted _).sublist (List.take_sublist _ _)
  refine ⟨?_, ?_, ?_, ?_, ?_, ?_⟩
  · calc (rank_candidates qe corpus).length
        ≤ (List.take top_k (sorted_candidates qe corpus)).length :=
          hsub_sorted.length_le
      _ ≤ top_k := List.length_take_le ..
  · intro p hp
    have hp' : p ∈ filtered_candidates qe corpus := hsub_filtered.mem hp
    unfold filtered_candidates at hp'
    exact of_decide_eq_true (List.mem_filter.mp hp').2
  · exact hsorted_take.sublist hsub_sorted
  · intro s
    have h1 : List.Sublist
        ((rank_candidates qe corpus).filter (fun p => decide (p.2 = s)))
        ((sorted_candidates qe corpus).filter (fun p => decide (p.2 = s))) :=
      (hsub_sorted.trans (List.take_sublist _ _)).filter _
    have h2 : (sorted_candidates qe corpus).filter (fun p => decide (p.2 = s))
        = (score_chunks qe corpus).filter (fun p => decide (p.2 = s)) := by
      unfold sorted_candidates
      refine sortDesc_filter _ ?_ _
      intro a b ha hb
      rw [of_decide_eq_true ha, of_decide_eq_true hb]
    rw [← h2]
    exact h1
  · exact dedupLoop_pairwise_keys _ []
  · intro p hp
    have hfs : (filtered_candidates qe corpus).Pairwise (fun a b => b.2 ≤ a.2) :=
      hsorted_take.sublist (List.filter_sublist _)
    exact dedupLoop_covers _ [] hfs p hp (List.not_mem_nil _)

/-! ## Unfolding lemmas for `ask_question` -/

theorem ask_question_of_empty_question (embed : List Char → List ℝ)
    (ca : List Char → List Char → List Char) (corpus : List Chunk)
    (question : List Char) (hq : pyStrip question = []) :
    ask_question embed ca corpus question = .error .emptyQuestion := by
  simp only [ask_question, if_pos hq]

theorem ask_question_of_empty_corpus (embed : List Char → List ℝ)
    (ca : List Char → List Char → List Char) (question : List Char)
    (hq : pyStrip question ≠ []) :
    ask_question embed ca [] question = .error .corpusEmpty := by
  simp only [ask_question, if_neg hq]

theorem ask_question_of_rank_nil (embed : List Char → List ℝ)
    (ca : List Char → List Char → List Char) (corpus : List Chunk)
    (question : List Char) (hq : pyStrip question ≠ []) (hcorp : corpus ≠ [])
    (hr : rank_candidates (embed question) corpus = []) :
    ask_question embed ca corpus question = .ok (no_evidence_response, false) := by
  cases corpus with
  | nil => exact absurd rfl hcorp
  | cons c cs =>
    simp only [ask_question, if_neg hq, hr]

theorem ask_question_of_rank_cons (embed : List Char → List ℝ)
    (ca : List Char → List Char → List Char) (corpus : List Chunk)
    (question : List Char) {p : Chunk × ℝ} {rest : List (Chunk × ℝ)}
    (hq : pyStrip question ≠ []) (hcorp : corpus ≠ [])
    (hr : rank_candidates (embed question) corpus = p :: rest) :
    ask_question embed ca corpus question =
      .ok ({ answer := ca system_message
                (user_prompt (build_context (p :: rest)) question)
             sources := (p :: rest).map (make_source question)
             confidence := confidence_label (confidence_score (p :: rest))
             confidence_score := confidence_score (p :: rest) }, true) := by
  cases corpus with
  | nil => exact absurd rfl hcorp
  | cons c cs =>
    simp only [ask_question, if_neg hq, hr]

/-! ## Concrete probe data for witnesses -/

/-- A corpus chunk whose embedding points opposite the probe question
embedding `[1]`, so its normalized score is 0 (below threshold). -/
noncomputable def probeChunk : Chunk :=
  { id := "c1".data
    document_id := "d1".data
    document_name := "Doc".data
    text := "text".data
    embedding := [(-1 : ℝ)]
    chunk_index := 0 }

theorem cosine_one_negone : cosine_similarity [(1 : ℝ)] [(-1 : ℝ)] = -1 := by
  have hd12 : dot [(1 : ℝ)] [(-1 : ℝ)] = -1 := by simp [dot]
  have hd1 : dot [(1 : ℝ)] [(1 : ℝ)] = 1 := by simp [dot]
  have hd2 : dot [(-1 : ℝ)] [(-1 : ℝ)] = 1 := by simp [dot]
  unfold cosine_similarity magnitude
  rw [hd12, hd1, hd2, Real.sqrt_one]
  norm_num [min_def, max_def]

theorem normalize_cosine_one_negone :
    normalize_similarity (cosine_similarity [(1 : ℝ)] [(-1 : ℝ)]) = 0 := by
  rw [cosine_one_negone]
  unfold normalize_similarity
  norm_num [min_def, max_def]

/-- The probe chunk does not clear the `min_score` threshold, so the
ranker returns nothing for it. -/
theorem rank_candidates_probe :
    rank_candidates [(1 : ℝ)] [probeChunk] = [] := by
  have hs : score_chunks [(1 : ℝ)] [probeChunk] = [(probeChunk, 0)] := by
    unfold score_chunks
    rw [List.map_cons, List.map_nil]
    rw [show probeChunk.embedding = [(-1 : ℝ)] from rfl]
    rw [normalize_cosine_one_negone]
  have hsorted : sorted_candidates [(1 : ℝ)] [probeChunk] = [(probeChunk, 0)] := by
    unfold sorted_candidates
    rw [hs]
    rfl
  have hfalse : (decide (min_score ≤ (0 : ℝ))) = false := by
    have : ¬ (min_score ≤ (0 : ℝ)) := by norm_num [min_score]
    simpa using this
  have hfiltered : filtered_candidates [(1 : ℝ)] [probeChunk] = [] := by
    unfold filtered_candidates
    rw [hsorted]
    rw [show List.take top_k [(probeChunk, (0 : ℝ))] = [(probeChunk, 0)] from rfl]
    rw [List.filter_cons, hfalse]
    rfl
  unfold rank_candidates
  rw [hfiltered]
  rfl

/-! ## The error-path claims -/

/-- C5: an ask against an empty corpus fails with the distinct
`corpusEmpty` condition (the 404 "No documents available"), never with a
successful canned answer; the check happens before any chunk is scored. -/
theorem ask_question_empty_corpus_error (embed : List Char → List ℝ)
    (ca : List Char → List Char → List Char) (question : List Char)
    (hq : pyStrip question ≠ []) :
    ask_question embed ca [] question = .error .corpusEmpty
    ∧ ∀ r : AskResponse × Bool, ask_question embed ca [] question ≠ .ok r := by
  have h := ask_question_of_empty_corpus embed ca question hq
  refine ⟨h, ?_⟩
  intro r hk
  rw [h] at hk
  cases hk

theorem ask_question_empty_corpus_error_witness :
    ask_question (fun _ => ([] : List ℝ)) (fun _ _ => ([] : List Char)) [] "q".data
      = .error .corpusEmpty :=
  (ask_question_empty_corpus_error _ _ _ (by decide)).1

/-- C4: when the corpus is non-empty but nothing survives the ranker, the
operation returns the fixed "insufficient information" answer with no
sources and confidence "low"/0.0, the chat-invocation flag is `false`, and
the result does not depend on the chat collaborator at all. -/
theorem ask_question_no_evidence_short_circuit (embed : List Char → List ℝ)
    (ca : List Char → List Char → List Char) (corpus : List Chunk)
    (question : List Char) (hq : pyStrip question ≠ []) (hcorp : corpus ≠ [])
    (hr : rank_candidates (embed question) corpus = []) :
    ask_question embed ca corpus question
      = .ok ({ answer := insufficient_answer
               sources := []
               confidence := "low".data
               confidence_score := 0 }, false)
    ∧ ∀ ca' : List Char → List Char → List Char,
        ask_question embed ca' corpus question
          = ask_question embed ca corpus question := by
  have h := ask_question_of_rank_nil embed ca corpus question hq hcorp hr
  refine ⟨h, ?_⟩
  intro ca'
  rw [h]
  exact ask_question_of_rank_nil embed ca' corpus question hq hcorp hr

theorem ask_question_no_evidence_short_circuit_witness :
    ask_question (fun _ => [(1 : ℝ)]) (fun _ _ => ([] : List Char))
        [probeChunk] "q".data
      = .ok ({ answer := insufficient_answer
               sources := []
               confidence := "low".data
               confidence_score := 0 }, false) :=
  (ask_question_no_evidence_short_circuit (fun _ => [(1 : ℝ)])
    (fun _ _ => ([] : List Char)) [probeChunk] "q".data (by decide)
    (List.cons_ne_nil _ _) rank_candidates_probe).1

/-! ## The confidence claim -/

/-- C3: on the no-evidence path the response carries confidence "low" with
numeric basis 0; on the evidence path the response's confidence score is
exactly the arithmetic mean of the surviving candidates' normalized scores
and its label is obtained from that mean by the closed-interval thresholds
(`>= 0.52` high, `>= 0.49` medium, else low — a mean exactly at a boundary
maps to the higher band). -/
theorem ask_question_confidence (embed : List Char → List ℝ)
    (ca : List Char → List Char → List Char) (corpus : List Chunk)
    (question : List Char) (hq : pyStrip question ≠ []) (hcorp : corpus ≠ []) :
    (rank_candidates (embed question) corpus = [] →
      ask_question embed ca corpus question = .ok (no_evidence_response, false)
      ∧ no_evidence_response.confidence = "low".data
      ∧ no_evidence_response.confidence_score = 0)
    ∧ (rank_candidates (embed question) corpus ≠ [] →
      ∃ resp : AskResponse,
        ask_question embed ca corpus question = .ok (resp, true)
        ∧ resp.confidence_score
            = confidence_score (rank_candidates (embed question) corpus)
        ∧ confidence_score (rank_candidates (embed question) corpus)
            = ((rank_candidates (embed question) corpus).map (fun p => p.2)).sum
              / (rank_candidates (embed question) corpus).length
        ∧ resp.confidence = confidence_label resp.confidence_score)
    ∧ (∀ m : ℝ,
        (0.52 ≤ m → confidence_label m = "high".data)
        ∧ (0.49 ≤ m → m < 0.52 → confidence_label m = "medium".data)
        ∧ (m < 0.49 → confidence_label m = "low".data)) := by
  refine ⟨?_, ?_, ?_⟩
  · intro hr
    exact ⟨ask_question_of_rank_nil embed ca corpus question hq hcorp hr, rfl, rfl⟩
  · intro hr
    cases hrr : rank_candidates (embed question) corpus with
    | nil => exact absurd hrr hr
    | cons p rest =>
      refine ⟨_, ask_question_of_rank_cons embed ca corpus question hq hcorp hrr, rfl, rfl, rfl⟩
  · intro m
    refine ⟨?_, ?_, ?_⟩
    · intro h1
      unfold confidence_label
      rw [if_pos h1]
    · intro h1 h2
      unfold confidence_label
      rw [if_neg (not_le.mpr h2), if_pos h1]
    · intro h1
      unfold confidence_label
      rw [if_neg (not_le.mpr (by linarith)), if_neg (not_le.mpr h1)]

theorem ask_question_confidence_witness :
    confidence_label 0.52 = "high".data
    ∧ confidence_label 0.49 = "medium".data
    ∧ confidence_label 0.4899 = "low".data := by
  have h := ask_question_confidence (fun _ => ([] : List ℝ))
    (fun _ _ => ([] : List Char)) [probeChunk] "q".data (by decide) (by simp)
  exact ⟨(h.2.2 0.52).1 (by norm_num),
    (h.2.2 0.49).2.1 (by norm_num) (by norm_num),
    (h.2.2 0.4899).2.2 (by norm_num)⟩

theorem rank_candidates_spec_witness :
    (rank_candidates [(1 : ℝ)] [probeChunk]).length ≤ top_k :=
  (rank_candidates_spec [(1 : ℝ)] [probeChunk]).1

/-! ## Lemmas about highlight selection -/

theorem overlap_score_nonneg (qt : Finset (List Char)) (s : List Char) :
    0 ≤ overlap_score qt s :=
  div_nonneg (Nat.cast_nonneg _) (zero_le_one.trans (le_max_left _ _))

theorem sentSplitGo_ne_nil (l : List Char) :
    ∀ (mode : Bool) (acc : List Char), sentSplitGo l mode acc ≠ [] := by
  induction l with
  | nil => intro mode acc; cases mode <;> exact List.cons_ne_nil _ _
  | cons c rest ih =>
    intro mode acc
    cases mode
    · rw [sentSplitGo]
      split
      · exact List.cons_ne_nil _ _
      · exact ih false (c :: acc)
    · rw [sentSplitGo]
      split
      · exact ih true acc
      · exact ih false (c :: acc)

theorem sentSplit_ne_nil (l : List Char) : sentSplit l ≠ [] :=
  sentSplitGo_ne_nil l false []

/-- Full characterization of the best-sentence fold: either nothing beats
the incoming accumulator (and the accumulator is returned), or the result
is the earliest sentence with a term set that strictly beats the
accumulator and all earlier candidates, and is at least as good as all
later ones. -/
theorem highlightGo_spec (qt : Finset (List Char)) (L : List (List Char)) :
    ∀ (best : List Char) (bestScore : ℚ),
      (highlightGo qt L best bestScore = best
        ∧ ∀ t ∈ L, terms t ≠ ∅ → overlap_score qt t ≤ bestScore)
      ∨ (∃ pre s post, L = pre ++ s :: post
          ∧ highlightGo qt L best bestScore = s
          ∧ terms s ≠ ∅
          ∧ bestScore < overlap_score qt s
          ∧ (∀ t ∈ pre, terms t ≠ ∅ → overlap_score qt t < overlap_score qt s)
          ∧ (∀ t ∈ post, terms t ≠ ∅ → overlap_score qt t ≤ overlap_score qt s)) := by
  induction L with
  | nil =>
    intro best bestScore
    left
    exact ⟨rfl, by intro t ht; cases ht⟩
  | cons s rest ih =>
    intro best bestScore
    rw [highlightGo]
    by_cases hts : terms s = ∅
    · rw [if_pos hts]
      rcases ih best bestScore with ⟨heq, hbound⟩ |
        ⟨pre, s', post, hL, heq, hterms, hlt, hpre, hpost⟩
      · left
        refine ⟨heq, ?_⟩
        intro t ht htt
        rcases List.mem_cons.mp ht with rfl | ht'
        · exact (htt hts).elim
        · exact hbound t ht' htt
      · right
        refine ⟨s :: pre, s', post, by rw [hL, List.cons_append],
          heq, hterms, hlt, ?_, hpost⟩
        intro t ht htt
        rcases List.mem_cons.mp ht with rfl | ht'
        · exact (htt hts).elim
        · exact hpre t ht' htt
    · rw [if_neg hts]
      by_cases hbeat : bestScore < overlap_score qt s
      · rw [if_pos hbeat]
        rcases ih s (overlap_score qt s) with ⟨heq, hbound⟩ |
          ⟨pre, s', post, hL, heq, hterms, hlt, hpre, hpost⟩
        · right
          refine ⟨[], s, rest, rfl, heq, hts, hbeat, ?_, hbound⟩
          intro t ht
          cases ht
        · right
          refine ⟨s :: pre, s', post, by rw [hL, List.cons_append],
            heq, hterms, lt_trans hbeat hlt, ?_, hpost⟩
          intro t ht htt
          rcases List.mem_cons.mp ht with rfl | ht'
          · exact hlt
          · exact hpre t ht' htt
      · rw [if_neg hbeat]
        have hle : overlap_score qt s ≤ bestScore := not_lt.mp hbeat
        rcases ih best bestScore with ⟨heq, hbound⟩ |
          ⟨pre, s', post, hL, heq, hterms, hlt, hpre, hpost⟩
        · left
          refine ⟨heq, ?_⟩
          intro t ht htt
          rcases List.mem_cons.mp ht with rfl | ht'
          · exact hle
          · exact hbound t ht' htt
        · right
          refine ⟨s :: pre, s', post, by rw [hL, List.cons_append],
            heq, hterms, hlt, ?_, hpost⟩
          intro t ht htt
          rcases List.mem_cons.mp ht with rfl | ht'
          · exact lt_of_le_of_lt hle hlt
          · exact hpre t ht' htt

/-- C8 (amended): when the question has at least one normalized term and
some sentence of the (stripped) chunk text carries a term, the returned
highlight is the stripped earliest sentence achieving the maximal
token-overlap ratio AMONG TERM-BEARING SENTENCES (earliest wins ties);
sentences with no alphanumeric tokens are skipped by the loop, and only
when every sentence is token-less does the first sentence win by default;
a question with no terms returns the whole trimmed text. -/
theorem select_highlight_sentence_spec (text question : List Char) :
    (terms question = ∅ →
        select_highlight_sentence text question = pyStrip text)
    ∧ (terms question ≠ ∅ →
      ((∀ s ∈ sentSplit (pyStrip text), terms s = ∅) →
          select_highlight_sentence text question
            = pyStrip ((sentSplit (pyStrip text)).headI))
      ∧ ((∃ s ∈ sentSplit (pyStrip text), terms s ≠ ∅) →
          ∃ pre s post, sentSplit (pyStrip text) = pre ++ s :: post
            ∧ select_highlight_sentence text question = pyStrip s
            ∧ terms s ≠ ∅
            ∧ (∀ t ∈ pre, terms t ≠ ∅ →
                overlap_score (terms question) t
                  < overlap_score (terms question) s)
            ∧ (∀ t ∈ post, terms t ≠ ∅ →
                overlap_score (terms question) t
                  ≤ overlap_score (terms question) s))) := by
  constructor
  · intro hq
    simp only [select_highlight_sentence]
    rw [if_pos hq]
  · intro hq
    cases hS : sentSplit (pyStrip text) with
    | nil => exact absurd hS (sentSplit_ne_nil _)
    | cons s0 S =>
      have hsel : select_highlight_sentence text question
          = pyStrip (highlightGo (terms question) (s0 :: S) s0 (-1)) := by
        simp only [select_highlight_sentence]
        rw [if_neg hq, hS]
      constructor
      · intro hall
        rcases highlightGo_spec (terms question) (s0 :: S) s0 (-1) with
          ⟨heq, -⟩ | ⟨pre, s', post, hL, -, hterms, -, -, -⟩
        · rw [hsel, heq]
          rfl
        · refine absurd (hall s' ?_) hterms
          rw [hL]
          exact List.mem_append_right _ (List.mem_cons_self ..)
      · rintro ⟨s1, hs1, hs1t⟩
        rcases highlightGo_spec (terms question) (s0 :: S) s0 (-1) with
          ⟨-, hbound⟩ | ⟨pre, s', post, hL, heq, hterms, -, hpre, hpost⟩
        · have h1 : overlap_score (terms question) s1 ≤ -1 :=
            hbound s1 hs1 hs1t
          have h2 : (0 : ℚ) ≤ overlap_score (terms question) s1 :=
            overlap_score_nonneg _ _
          linarith
        · refine ⟨pre, s', post, hL, ?_, hterms, hpre, hpost⟩
          rw [hsel, heq]

theorem select_highlight_sentence_spec_witness :
    select_highlight_sentence "a. b".data "???".data = pyStrip "a. b".data :=
  (select_highlight_sentence_spec "a. b".data "???".data).1 (by decide)

/-- C8 counterexample: with chunk text `"!!! Hello."` and question `"xyz"`
the two sentences are `"!!!"` and `"Hello."`, neither shares a term with
the question (both overlap ratios are 0, a tie), yet the function returns
the SECOND sentence, not the first: the loop skips sentences carrying no
alphanumeric token, so the claimed "first sentence wins on ties and when
nothing overlaps" fails. -/
theorem select_highlight_sentence_counterexample :
    sentSplit (pyStrip "!!! Hello.".data) = ["!!!".data, "Hello.".data]
    ∧ overlap_score (terms "xyz".data) "!!!".data = 0
    ∧ overlap_score (terms "xyz".data) "Hello.".data = 0
    ∧ select_highlight_sentence "!!! Hello.".data "xyz".data = "Hello.".data
    ∧ "Hello.".data ≠ "!!!".data := by
  have hsplit : sentSplit (pyStrip "!!! Hello.".data)
      = ["!!!".data, "Hello.".data] := by decide
  have hqcard : (terms "xyz".data).card = 1 := by decide
  have hint1 : (terms "xyz".data ∩ terms "!!!".data).card = 0 := by decide
  have hint2 : (terms "xyz".data ∩ terms "Hello.".data).card = 0 := by decide
  have hov1 : overlap_score (terms "xyz".data) "!!!".data = 0 := by
    unfold overlap_score
    rw [hint1, hqcard]
    norm_num
  have hov2 : overlap_score (terms "xyz".data) "Hello.".data = 0 := by
    unfold overlap_score
    rw [hint2, hqcard]
    norm_num
  have hqne : terms "xyz".data ≠ ∅ := by decide
  have ht1 : terms "!!!".data = ∅ := by decide
  have ht2 : terms "Hello.".data ≠ ∅ := by decide
  refine ⟨hsplit, hov1, hov2, ?_, by decide⟩
  simp only [select_highlight_sentence]
  rw [if_neg hqne, hsplit]
  rw [highlightGo, if_pos ht1]
  rw [highlightGo, if_neg ht2, if_pos (show (-1 : ℚ) < overlap_score
    (terms "xyz".data) "Hello.".data by rw [hov2]; norm_num)]
  rw [highlightGo]
  decide

end PKQA
